import Mathlib

/-!
Verification development for the ska-sdp-datamodels repository.

Part A embeds, directly from the Python source, the pure visibility utilities
of src/ska_sdp_datamodels/visibility/vis_utils.py and the control flow of
src/ska_sdp_datamodels/visibility/visibility_fitting.py.

Part B embeds the Fourier Imaging Engine (the context dispatcher
predict_context / invert_context, the partitioner, the kernel cache and the
assembler / normalizer).  The engine itself is not part of the source tree
(only its unit tests, tests/test_imaging_context.py, are), so every Part B
definition is modelled from the natural-language specification; each such
definition carries a doc comment starting with the words Modelled from the
spec.  Machine reals are embedded as exact rationals, complex values as pairs
of rationals, and the Fourier fringe is discretized to quarter periods (the
exact characters of order four) so that every definition stays executable;
the fringe is exactly one at the image phase centre, which is the only value
of the transform kernel any claim depends on.
-/

namespace SDP

/-! ## Part A: definitions embedded from the Python source -/

/-- The function generate_baselines of
src/ska_sdp_datamodels/visibility/vis_utils.py.  The Python generator
runs ant1 over range(0, nant) and ant2 over range(ant1, nant) and yields
the pair (ant1, ant2); it is embedded as the list of yielded pairs. -/
def generate_baselines (nant : ℕ) : List (ℕ × ℕ) :=
  (List.range nant).flatMap (fun ant1 =>
    (List.range' ant1 (nant - ant1)).map (fun ant2 => (ant1, ant2)))

/-- A three dimensional numpy array of shape (frequency, baselines,
polarizations) together with its dtype tag, as consumed by
expand_polarizations.  Values are embedded as exact rationals and the dtype
as an opaque numeric tag; a dtype conversion changes only the tag. -/
structure NDArr where
  n0 : ℕ
  n1 : ℕ
  npol : ℕ
  dtype : ℕ
  val : ℕ → ℕ → ℕ → ℚ

/-- The function expand_polarizations of
src/ska_sdp_datamodels/visibility/vis_utils.py.  When the input already has
four polarizations and the requested dtype equals the input dtype the Python
code returns the unmodified input array object; otherwise it allocates a
zero array of shape data.shape[:-1] + (4,) and copies: for four input
polarizations all of them, for two input polarizations input 0 to output 0
and input 1 to output 3, and otherwise input 0 to outputs 0 and 3. -/
def expand_polarizations (data : NDArr) (dtype : Option ℕ) : NDArr :=
  let dt := dtype.getD data.dtype
  if data.npol = 4 ∧ dt = data.dtype then
    data
  else
    { n0 := data.n0, n1 := data.n1, npol := 4, dtype := dt,
      val := fun i j p =>
        if data.npol = 4 then data.val i j p
        else if data.npol = 2 then
          if p = 0 then data.val i j 0
          else if p = 3 then data.val i j 1
          else 0
        else
          if p = 0 then data.val i j 0
          else if p = 3 then data.val i j 0
          else 0 }

/-- A sky component as touched by fit_visibility: a flux table over
(channel, polarisation) and a direction, the latter embedded as the (l, m)
offsets that lmn_to_skycoord receives. -/
structure SkyComponent where
  flux : ℕ → ℕ → ℚ
  direction : ℚ × ℚ

/-- The solution vector res.x of the scipy minimisation used by
fit_visibility: fitted flux, fitted l and fitted m. -/
structure FitResult where
  x0 : ℚ
  x1 : ℚ
  x2 : ℚ

/-- The function fit_visibility of
src/ska_sdp_datamodels/visibility/visibility_fitting.py, embedded with
explicit state passing for the in-place mutation of the component sc.  The
function first asserts that the visibility polarisation frame type is
stokesI, raising AssertionError before any fitting otherwise; the scipy
call minimize is external to the repository, so its solution enters as the
parameter res.  After a successful minimisation the code assigns
sc.flux[...] = res.x[0] (a broadcast into every entry of the flux table) and
sc.direction = lmn_to_skycoord((res.x[1], res.x[2], 0.0), phasecentre), both
in place, and returns the very component object it mutated.  The returned
pair is (result or raised error, post-call state of sc). -/
def fit_visibility (polarisation_frame_type : String) (sc : SkyComponent)
    (res : FitResult) : Except String SkyComponent × SkyComponent :=
  if polarisation_frame_type = "stokesI" then
    let sc2 : SkyComponent :=
      { flux := fun _ _ => res.x0, direction := (res.x1, res.x2) }
    (Except.ok sc2, sc2)
  else
    (Except.error ("Currently restricted to stokesI"), sc)

/-! ## Part B: the Fourier Imaging Engine, modelled from the spec -/

/-- Complex values are embedded as pairs of exact rationals. -/
abbrev CValue := ℚ × ℚ

/-- Modelled from the spec: the Visibility data contract (spec sections 3
and 6).  Samples are laid out over rows (time and baseline flattened, the
order of the rows being the sample ordering the dispatcher must preserve)
and, per row, over frequency channel and polarisation; each sample has a
complex value, a real weight, a boolean flag, and the row carries its time
stamp, baseline and uvw vector. -/
structure Visibility where
  nrows : ℕ
  nchan : ℕ
  npol : ℕ
  time : ℕ → ℚ
  baseline : ℕ → ℕ × ℕ
  uvw : ℕ → ℚ × ℚ × ℚ
  vis : ℕ → ℕ → ℕ → CValue
  weight : ℕ → ℕ → ℕ → ℚ
  flag : ℕ → ℕ → ℕ → Bool

/-- Modelled from the spec: the Image data contract (spec sections 3 and 6),
a pixel array of shape (nchan, npol, ny, nx). -/
structure Image where
  nchan : ℕ
  npol : ℕ
  ny : ℕ
  nx : ℕ
  data : ℕ → ℕ → ℕ → ℕ → ℚ

/-- Modelled from the spec: the context tag selecting the partitioning
strategy of the dispatcher (spec section 4.3). -/
inductive Context where
  | c2d : Context
  | facets : ℕ → Context
  | timeslice : ℚ → Context
  | wstack : ℚ → Context

/-- Modelled from the spec: the option set of the dispatcher that the claims
exercise; the kernel tag selecting w-projection and the w-plane bucket
width wstep (spec sections 4.1 and 6). -/
structure ImagingParams where
  wprojection : Bool
  wstep : ℚ

/-- Modelled from the spec: the typed error surface of the engine
(spec section 7). -/
inductive ImagingError where
  | configuration : String → ImagingError
  | assembly : String → ImagingError

/-- Modelled from the spec: a convolution kernel of the kernel cache.  The
spec builds, per w-plane, the anti-aliasing kernel convolved with a
w-dependent chirp; in this model the kernel is reduced to the datum the
claims depend on, the chirp coefficient of its w-plane, which multiplies
the quadratic term of the discretized fringe phase (the chirp is quadratic
in the tangent plane offsets and vanishes at the phase centre). -/
structure Kernel where
  plane : ℤ

/-- Modelled from the spec: deterministic, side-effect-free construction of
the kernel of one w-plane (spec section 4.1). -/
def buildKernel (k : ℤ) : Kernel := ⟨k⟩

/-- Modelled from the spec: rounding half away from zero, the tie break the
spec fixes for the w-plane bucketing rule (spec section 4.1). -/
def round_half_away (q : ℚ) : ℤ :=
  if 0 ≤ q then ⌊q + 1/2⌋ else -⌊-q + 1/2⌋

/-- Modelled from the spec: the w-plane bucket index
plane_index = round(w / wstep) with ties rounded half away from zero
(spec sections 4.1 and 9). -/
def w_plane_index (w wstep : ℚ) : ℤ := round_half_away (w / wstep)

/-- Modelled from the spec: the kernel cache, keyed by the integer plane
index and never by the raw floating w; one kernel is built per distinct
bucket index (spec sections 4.1 and 9). -/
def kernel_cache (keys : List ℤ) : List (ℤ × Kernel) :=
  keys.dedup.map (fun k => (k, buildKernel k))

/-- Modelled from the spec: a cache lookup by integer plane index. -/
def kernel_of (cache : List (ℤ × Kernel)) (k : ℤ) : Kernel :=
  (cache.lookup k).getD ⟨0⟩

/-- Modelled from the spec: the cache an engine call builds for a
visibility, holding one kernel per distinct w-plane index present. -/
def vis_kernel_cache (v : Visibility) (pars : ImagingParams) :
    List (ℤ × Kernel) :=
  kernel_cache ((List.range v.nrows).map
    (fun r => w_plane_index (v.uvw r).2.2 pars.wstep))

/-- Modelled from the spec: the kernel the engine uses for sample row r, a
cache lookup keyed by the w-plane index of the row. -/
def kernel_used (v : Visibility) (pars : ImagingParams) (r : ℕ) : Kernel :=
  kernel_of (vis_kernel_cache v pars) (w_plane_index (v.uvw r).2.2 pars.wstep)

/-- Modelled from the spec: the cosine of the fringe phase, discretized to
quarter periods so that it stays an exact rational; it is exactly one at
phase zero. -/
def qcos (n : ℤ) : ℚ :=
  if n % 4 = 0 then 1 else if n % 4 = 2 then -1 else 0

/-- Modelled from the spec: the sine of the fringe phase, discretized to
quarter periods; it is exactly zero at phase zero. -/
def qsin (n : ℤ) : ℚ :=
  if n % 4 = 1 then 1 else if n % 4 = 3 then -1 else 0

/-- Pixel offset from the image phase centre column nx / 2 (the phase centre
row is ny / 2), in pixels. -/
def dxOf (nx x : ℕ) : ℤ := (x : ℤ) - ((nx / 2 : ℕ) : ℤ)

/-- Modelled from the spec: the per-partition phase correction coefficient.
Timeslice windows receive a single mid-window correction and wstack planes a
per-plane correction (spec section 4.3); both are w-like corrections,
quadratic in the tangent plane offsets, and vanish at the phase centre. -/
def partition_phase_coeff (ctx : Context) (k : ℤ) : ℤ :=
  match ctx with
  | Context.timeslice _ => k
  | Context.wstack _ => k
  | _ => 0

/-- Modelled from the spec: the discretized fringe phase of one sample at
one image pixel: the linear uv fringe plus the quadratic chirp of the
selected kernel (under w-projection) and of the partition correction.  Every
term vanishes at the phase centre pixel (ny / 2, nx / 2). -/
def sample_phase (pars : ImagingParams) (ctx : Context) (k : ℤ)
    (kern : Kernel) (uvw : ℚ × ℚ × ℚ) (ny nx y x : ℕ) : ℤ :=
  let dx := dxOf nx x
  let dy := dxOf ny y
  ⌊uvw.1⌋ * dx + ⌊uvw.2.1⌋ * dy +
    ((if pars.wprojection then kern.plane else 0) +
      partition_phase_coeff ctx k) * (dx * dx + dy * dy)

/-- Modelled from the spec: the partition bucket of a sample row.  The 2d
and facets contexts keep the visibility set whole; timeslice groups rows
into time windows of the given width and wstack into w bins of the given
width (spec section 4.3). -/
def row_bucket (ctx : Context) (v : Visibility) (r : ℕ) : ℤ :=
  match ctx with
  | Context.timeslice ts => ⌊v.time r / ts⌋
  | Context.wstack ws => ⌊(v.uvw r).2.2 / ws⌋
  | _ => 0

/-- Modelled from the spec: the distinct partition keys of a visibility in
the order of first appearance. -/
def partition_keys (v : Visibility) (ctx : Context) : List ℤ :=
  ((List.range v.nrows).map (row_bucket ctx v)).dedup

/-- Modelled from the spec: the partition of one key, a read-only selection
of row indices in their original order. -/
def partition_rows (v : Visibility) (ctx : Context) (k : ℤ) : List ℕ :=
  (List.range v.nrows).filter (fun r => row_bucket ctx v r == k)

/-- Modelled from the spec: whether a facet count evenly divides both
spatial image dimensions (spec section 4.3). -/
def facets_divide (n : ℕ) (img : Image) : Bool :=
  img.ny % n == 0 && img.nx % n == 0

/-- Modelled from the spec: the parameter validation of the dispatcher; the
facets context fails with a ConfigurationError when the facet count does
not evenly divide the image dimensions (spec sections 4.3 and 7). -/
def context_ok (ctx : Context) (img : Image) : Bool :=
  match ctx with
  | Context.facets n => facets_divide n img
  | _ => true

/-- Modelled from the spec: the index grid of an N by N facet
decomposition. -/
def facet_indices (n : ℕ) : List (ℕ × ℕ) :=
  (List.range n).flatMap (fun i => (List.range n).map (fun j => (i, j)))

/-- Modelled from the spec: facet (i, j) of an N by N decomposition, a
non-overlapping sub-image of spatial shape (ny / n, nx / n) viewing the
parent pixels at offset (i * (ny / n), j * (nx / n)) (spec section 4.3). -/
def facet_image (img : Image) (n i j : ℕ) : Image :=
  { nchan := img.nchan, npol := img.npol, ny := img.ny / n, nx := img.nx / n,
    data := fun c p y x =>
      img.data c p (i * (img.ny / n) + y) (j * (img.nx / n) + x) }

/-- Modelled from the spec: the pixel index list of the full image. -/
def all_pixels (ny nx : ℕ) : List (ℕ × ℕ) :=
  (List.range ny).flatMap (fun y => (List.range nx).map (fun x => (y, x)))

/-- Modelled from the spec: the parent-image pixel indices covered by facet
(i, j); the facet sub-image views exactly these pixels. -/
def facet_pixels (img : Image) (n i j : ℕ) : List (ℕ × ℕ) :=
  (List.range (img.ny / n)).flatMap (fun yy =>
    (List.range (img.nx / n)).map (fun xx =>
      (i * (img.ny / n) + yy, j * (img.nx / n) + xx)))

/-- Modelled from the spec: the degridder (spec section 4.2), producing the
predicted complex value of one sample as the transform of the image over a
pixel list, each pixel weighted by the discretized fringe. -/
def degrid_over (img : Image) (pix : List (ℕ × ℕ)) (pars : ImagingParams)
    (ctx : Context) (k : ℤ) (kern : Kernel) (uvw : ℚ × ℚ × ℚ)
    (c p : ℕ) : CValue :=
  (pix.map (fun yx =>
    let θ := sample_phase pars ctx k kern uvw img.ny img.nx yx.1 yx.2
    (img.data c p yx.1 yx.2 * qcos θ, img.data c p yx.1 yx.2 * qsin θ))).sum

/-- Modelled from the spec: the per-sample predict value of one partition.
Under the facets context the image is cut into the facet grid and the
contributions of the facets are summed; otherwise the whole image is
degridded (spec sections 4.3 and 4.4). -/
def predict_value (model : Image) (pars : ImagingParams) (ctx : Context)
    (k : ℤ) (kern : Kernel) (uvw : ℚ × ℚ × ℚ) (c p : ℕ) : CValue :=
  match ctx with
  | Context.facets n =>
      ((facet_indices n).map (fun ij =>
        degrid_over model (facet_pixels model n ij.1 ij.2) pars ctx k kern
          uvw c p)).sum
  | _ => degrid_over model (all_pixels model.ny model.nx) pars ctx k kern
      uvw c p

/-- Modelled from the spec: the assembler of the predict direction (spec
sections 4.4 and 4.5): partition outputs, tagged with their original row
index, are scattered back into a fresh zeroed value buffer; a later write
to the same row would overwrite an earlier one. -/
def scatter (base : ℕ → ℕ → ℕ → CValue) :
    List (ℕ × (ℕ → ℕ → CValue)) → ℕ → ℕ → ℕ → CValue
  | [] => base
  | rf :: rest =>
      scatter (fun r c p => if r = rf.1 then rf.2 c p else base r c p) rest

/-- Modelled from the spec: the dispatcher predict_context (spec section
4.4).  It validates the context parameters, builds the partitions, degrids
each partition with the kernel the cache selects for each sample, and
merges the partition outputs back into a full visibility set in the
original sample ordering; every metadata field of the input is carried
over, only the visibility values are replaced by the assembled
prediction. -/
def predict_context (v : Visibility) (model : Image) (ctx : Context)
    (pars : ImagingParams) : Except ImagingError Visibility :=
  if context_ok ctx model then
    let outs := (partition_keys v ctx).flatMap (fun k =>
      (partition_rows v ctx k).map (fun r =>
        (r, fun c p =>
          predict_value model pars ctx k (kernel_used v pars r) (v.uvw r)
            c p)))
    Except.ok { v with vis := scatter (fun _ _ _ => (0, 0)) outs }
  else
    Except.error
      (ImagingError.configuration ("facets do not divide the image dimensions"))

/-- Modelled from the spec: when dopsf is set the visibility amplitudes are
replaced by unit amplitude while weights and flags are preserved, before
gridding (spec section 4.4). -/
def unit_amplitude (v : Visibility) : Visibility :=
  { v with vis := fun _ _ _ => (1, 0) }

/-- Modelled from the spec: the gridder contribution of one sample to one
dirty image pixel (spec section 4.2): unflagged samples contribute
weight times the real part of value times fringe; flagged samples
contribute zero but are preserved. -/
def sample_dirty_contrib (vv : Visibility) (pars : ImagingParams)
    (ctx : Context) (k : ℤ) (ny nx r c p y x : ℕ) : ℚ :=
  if vv.flag r c p then 0
  else
    let θ := sample_phase pars ctx k (kernel_used vv pars r) (vv.uvw r)
      ny nx y x
    vv.weight r c p * ((vv.vis r c p).1 * qcos θ + (vv.vis r c p).2 * qsin θ)

/-- Modelled from the spec: the partial dirty image of one partition,
summed over the rows of the partition. -/
def partial_dirty (vv : Visibility) (pars : ImagingParams) (ctx : Context)
    (k : ℤ) (rows : List ℕ) (ny nx c p y x : ℕ) : ℚ :=
  (rows.map (fun r => sample_dirty_contrib vv pars ctx k ny nx r c p y x)).sum

/-- Modelled from the spec: the partial sum of weights of one partition per
(channel, polarisation): flagged samples contribute zero, unflagged ones
their weight (spec section 3). -/
def partial_sumwt (vv : Visibility) (rows : List ℕ) (c p : ℕ) : ℚ :=
  (rows.map (fun r => if vv.flag r c p then 0 else vv.weight r c p)).sum

/-- Modelled from the spec: the assembler of the invert direction for
partitions covering the same spatial extent: partial dirty images are
summed element-wise over the partition keys (spec section 4.5). -/
def assembled_dirty (vv : Visibility) (pars : ImagingParams) (ctx : Context)
    (ny nx c p y x : ℕ) : ℚ :=
  ((partition_keys vv ctx).map (fun k =>
    partial_dirty vv pars ctx k (partition_rows vv ctx k) ny nx c p y x)).sum

/-- Modelled from the spec: the sum of weights accumulated across
partitions, one scalar per (channel, polarisation) (spec sections 3 and
4.5). -/
def assembled_sumwt (vv : Visibility) (ctx : Context) (c p : ℕ) : ℚ :=
  ((partition_keys vv ctx).map (fun k =>
    partial_sumwt vv (partition_rows vv ctx k) c p)).sum

/-- Modelled from the spec: the raw (un-normalized) dirty image.  Under the
facets context each facet partial image is placed edge to edge into its own
sub-extent of the output array: output pixel (y, x) receives the facet
(y / fy, x / fx) at its local pixel (y mod fy, x mod fx), whose parent
coordinate is reassembled from the facet offset; all other contexts
assemble on the full grid directly (spec section 4.5). -/
def raw_dirty (vv : Visibility) (pars : ImagingParams) (ctx : Context)
    (model : Image) (c p y x : ℕ) : ℚ :=
  match ctx with
  | Context.facets n =>
      let fy := model.ny / n
      let fx := model.nx / n
      assembled_dirty vv pars ctx model.ny model.nx c p
        ((y / fy) * fy + y % fy) ((x / fx) * fx + x % fx)
  | _ => assembled_dirty vv pars ctx model.ny model.nx c p y x

/-- Modelled from the spec: the normalizer (spec sections 4.4 and 4.5):
each (channel, polarisation) slice with strictly positive sum of weights is
divided by that sum; a slice with zero sum of weights is left unnormalized
(its zero entry in the returned sum-of-weights array is the mark the caller
sees), and no division by zero is ever performed. -/
def normalize_image (raw : ℕ → ℕ → ℕ → ℕ → ℚ) (swt : ℕ → ℕ → ℚ) :
    ℕ → ℕ → ℕ → ℕ → ℚ :=
  fun c p y x => if 0 < swt c p then raw c p y x / swt c p else raw c p y x

/-- Modelled from the spec: the dispatcher invert_context (spec section
4.4).  It validates the context parameters, replaces amplitudes by unit
amplitude when dopsf is set, accumulates partial dirty images and partial
sums of weights across the partitions, assembles them, normalizes when
requested, and returns the freshly built image together with the
sum-of-weights array. -/
def invert_context (v : Visibility) (model : Image) (dopsf normalize : Bool)
    (ctx : Context) (pars : ImagingParams) :
    Except ImagingError (Image × (ℕ → ℕ → ℚ)) :=
  if context_ok ctx model then
    let vv := if dopsf then unit_amplitude v else v
    let swt := assembled_sumwt vv ctx
    let outd := if normalize then
        normalize_image (raw_dirty vv pars ctx model) swt
      else raw_dirty vv pars ctx model
    Except.ok
      ({ nchan := model.nchan, npol := model.npol, ny := model.ny,
         nx := model.nx, data := outd }, swt)
  else
    Except.error
      (ImagingError.configuration ("facets do not divide the image dimensions"))

/-- Modelled from the spec: the store of input objects a dispatcher call
can see (spec section 5 treats Visibility and Image as immutable inputs of
predict and invert). -/
structure EngineState where
  vis : Visibility
  model : Image

/-- Modelled from the spec: a predict_context call with the surrounding
object store passed explicitly; the call reads the inputs and constructs
its output visibility fresh, so the store it returns is the store it
received. -/
def predict_context_call (st : EngineState) (ctx : Context)
    (pars : ImagingParams) : EngineState × Except ImagingError Visibility :=
  (st, predict_context st.vis st.model ctx pars)

/-- Modelled from the spec: an invert_context call with the surrounding
object store passed explicitly; the call reads the inputs and constructs
its output image fresh, so the store it returns is the store it
received. -/
def invert_context_call (st : EngineState) (dopsf normalize : Bool)
    (ctx : Context) (pars : ImagingParams) :
    EngineState × Except ImagingError (Image × (ℕ → ℕ → ℚ)) :=
  (st, invert_context st.vis st.model dopsf normalize ctx pars)

/-- The partition outputs predict scatters back, tagged by original row. -/
def predict_outs (v : Visibility) (model : Image) (ctx : Context)
    (pars : ImagingParams) : List (ℕ × (ℕ → ℕ → CValue)) :=
  (partition_keys v ctx).flatMap (fun k =>
    (partition_rows v ctx k).map (fun r =>
      (r, fun c p =>
        predict_value model pars ctx k (kernel_used v pars r) (v.uvw r) c p)))

/-- The visibility invert actually grids: the input, or its unit amplitude
copy when dopsf is set. -/
def gridded_vis (v : Visibility) (dopsf : Bool) : Visibility :=
  if dopsf then unit_amplitude v else v

/-- The image a successful invert call returns: the assembled dirty image,
normalized when requested. -/
def invert_image (v : Visibility) (model : Image) (dopsf norm : Bool)
    (ctx : Context) (pars : ImagingParams) : Image :=
  { nchan := model.nchan, npol := model.npol, ny := model.ny, nx := model.nx,
    data := if norm then
        normalize_image (raw_dirty (gridded_vis v dopsf) pars ctx model)
          (assembled_sumwt (gridded_vis v dopsf) ctx)
      else raw_dirty (gridded_vis v dopsf) pars ctx model }

/-! ## Concrete instances used by witnesses and counterexamples -/

/-- A small concrete visibility: two rows, one channel, one polarisation,
uniform unit weight, no flags. -/
def vW : Visibility :=
  { nrows := 2, nchan := 1, npol := 1,
    time := fun r => (r : ℚ),
    baseline := fun r => (0, r),
    uvw := fun r => ((r : ℚ), 0, (r : ℚ)),
    vis := fun _ _ _ => (2, 1),
    weight := fun _ _ _ => 1,
    flag := fun _ _ _ => false }

/-- A small concrete model image of shape (1, 1, 2, 2). -/
def mW : Image :=
  { nchan := 1, npol := 1, ny := 2, nx := 2,
    data := fun _ _ y x => (y : ℚ) + (x : ℚ) }

/-- Plain imaging parameters: no w-projection, unit wstep. -/
def parsW : ImagingParams := { wprojection := false, wstep := 1 }

/-- Imaging parameters with w-projection enabled and unit wstep. -/
def parsWproj : ImagingParams := { wprojection := true, wstep := 1 }

/-- The predict output inspected by the witness of the ordering claim. -/
def predOutW : Visibility :=
  (predict_context vW mW Context.c2d parsW).toOption.getD vW

/-- The invert output, with dopsf and normalize set, inspected by the
witness of the PSF claim. -/
def invResW : Image × (ℕ → ℕ → ℚ) :=
  (invert_context vW mW true true Context.c2d parsW).toOption.getD
    (mW, fun _ _ => 0)

/-- The invert output, with dopsf clear, inspected by the witness of the
sum-of-weights claim. -/
def invResW2 : Image × (ℕ → ℕ → ℚ) :=
  (invert_context vW mW false true Context.c2d parsW).toOption.getD
    (mW, fun _ _ => 0)

/-- A visibility whose weight is positive in polarisation 0 and zero in
polarisation 1, the counterexample instance of the PSF and sum-of-weights
claims. -/
def vCE : Visibility :=
  { nrows := 1, nchan := 1, npol := 2,
    time := fun _ => 0,
    baseline := fun _ => (0, 1),
    uvw := fun _ => (0, 0, 0),
    vis := fun _ _ _ => (3, 0),
    weight := fun _ _ p => if p = 0 then 1 else 0,
    flag := fun _ _ _ => false }

/-- The model image of the counterexample instances, of shape
(1, 2, 2, 2). -/
def mCE : Image :=
  { nchan := 1, npol := 2, ny := 2, nx := 2, data := fun _ _ _ _ => 0 }

/-- A concrete two polarisation array for the witness of the polarisation
expansion claim. -/
def dataW : NDArr :=
  { n0 := 1, n1 := 1, npol := 2, dtype := 0,
    val := fun _ _ p => (p : ℚ) + 5 }

/-- A concrete component for the witness of the fitting claim. -/
def scW : SkyComponent :=
  { flux := fun _ _ => 7, direction := (1/10, -(1/10)) }

/-- A concrete minimisation outcome for the witness of the fitting
claim. -/
def resW : FitResult := { x0 := 9, x1 := 1/100, x2 := 3/100 }

/-! ## Helper lemmas on the partition machinery -/

/-- Congruence for flatMap over the members of the outer list. -/
theorem flatMap_congr_mem {α β : Type} (l : List α) (f g : α → List β)
    (h : ∀ a ∈ l, f a = g a) : l.flatMap f = l.flatMap g := by
  induction l with
  | nil => rfl
  | cons a tl ih =>
      rw [List.flatMap_cons, List.flatMap_cons, h a (List.mem_cons_self a tl),
        ih (fun b hb => h b (List.mem_cons_of_mem a hb))]

/-- Grouping a list by a key function and concatenating the groups over a
duplicate-free list of keys covering every element is a permutation of the
list. -/
theorem flatMap_filter_perm {α β : Type} [DecidableEq α] [DecidableEq β]
    (g : α → β) :
    ∀ (ks : List β) (l : List α), ks.Nodup → (∀ a ∈ l, g a ∈ ks) →
      List.Perm (ks.flatMap (fun k => l.filter (fun a => g a == k))) l := by
  intro ks
  induction ks with
  | nil =>
      intro l _ hcov
      have hnil : l = [] :=
        List.eq_nil_iff_forall_not_mem.mpr
          (fun a ha => by simpa using hcov a ha)
      simp [hnil]
  | cons k ks ih =>
      intro l hnd hcov
      have hk_not : k ∉ ks := (List.nodup_cons.mp hnd).1
      have hnd2 : ks.Nodup := (List.nodup_cons.mp hnd).2
      rw [List.flatMap_cons]
      have hstep : ∀ k2 ∈ ks,
          l.filter (fun a => g a == k2) =
            (l.filter (fun a => !(g a == k))).filter (fun a => g a == k2) := by
        intro k2 hk2
        rw [List.filter_filter]
        apply List.filter_congr
        intro a _
        by_cases hga : g a = k2
        · have hne : ¬ g a = k := fun hh => hk_not (hh ▸ hga ▸ hk2)
          have hne2 : ¬ k2 = k := fun hh => hne (hga.trans hh)
          simp [hga, hne2]
        · simp [hga]
      rw [flatMap_congr_mem ks _ _ hstep]
      have hcov2 : ∀ a ∈ l.filter (fun a => !(g a == k)), g a ∈ ks := by
        intro a ha
        have hmem := List.mem_filter.mp ha
        have hne : ¬ g a = k := by simpa using hmem.2
        have := hcov a hmem.1
        rcases List.mem_cons.mp this with hh | hh
        · exact absurd hh hne
        · exact hh
      have hperm2 := ih (l.filter (fun a => !(g a == k))) hnd2 hcov2
      have happ := hperm2.append_left (l.filter (fun a => g a == k))
      exact happ.trans (List.filter_append_perm (fun a => g a == k) l)

/-- The partitions of a visibility cover its row range exactly once. -/
theorem partition_rows_perm (v : Visibility) (ctx : Context) :
    List.Perm
      ((partition_keys v ctx).flatMap (fun k => partition_rows v ctx k))
      (List.range v.nrows) := by
  apply flatMap_filter_perm (row_bucket ctx v)
  · exact List.nodup_dedup _
  · intro r hr
    exact List.mem_dedup.mpr (List.mem_map_of_mem _ hr)

/-- Each row below nrows appears in the partition of its own bucket. -/
theorem mem_partition_rows_self (v : Visibility) (ctx : Context) (r : ℕ)
    (hr : r < v.nrows) : r ∈ partition_rows v ctx (row_bucket ctx v r) := by
  apply List.mem_filter.mpr
  exact ⟨List.mem_range.mpr hr, by simp⟩

/-- Rows of the partition of key k have bucket k. -/
theorem bucket_of_mem_partition_rows (v : Visibility) (ctx : Context)
    (k : ℤ) (r : ℕ) (hr : r ∈ partition_rows v ctx k) :
    row_bucket ctx v r = k := by
  have := (List.mem_filter.mp hr).2
  simpa using this

/-- A bucket of a row below nrows is one of the partition keys. -/
theorem row_bucket_mem_keys (v : Visibility) (ctx : Context) (r : ℕ)
    (hr : r < v.nrows) : row_bucket ctx v r ∈ partition_keys v ctx :=
  List.mem_dedup.mpr (List.mem_map_of_mem _ (List.mem_range.mpr hr))

/-- Sums commute with flatMap. -/
theorem sum_map_flatMap {α β M : Type} [AddCommMonoid M] (f : β → M)
    (g : α → List β) (l : List α) :
    ((l.flatMap g).map f).sum = (l.map (fun a => ((g a).map f).sum)).sum := by
  induction l with
  | nil => rfl
  | cons a tl ih =>
      rw [List.flatMap_cons, List.map_append, List.sum_append, ih,
        List.map_cons, List.sum_cons]

/-- A per-partition accumulation whose per-row term agrees, on the rows of
each partition, with a fixed per-row term equals the direct accumulation
over all rows. -/
theorem sum_over_partitions (v : Visibility) (ctx : Context)
    (hk : ℤ → ℕ → ℚ) (h : ℕ → ℚ)
    (hh : ∀ k r, r ∈ partition_rows v ctx k → hk k r = h r) :
    ((partition_keys v ctx).map (fun k =>
      ((partition_rows v ctx k).map (hk k)).sum)).sum =
      ((List.range v.nrows).map h).sum := by
  have h1 : (partition_keys v ctx).map (fun k =>
      ((partition_rows v ctx k).map (hk k)).sum) =
      (partition_keys v ctx).map (fun k =>
        ((partition_rows v ctx k).map h).sum) := by
    apply List.map_congr_left
    intro k _
    rw [List.map_congr_left (fun r hr => hh k r hr)]
  rw [h1, ← sum_map_flatMap h (fun k => partition_rows v ctx k)]
  exact (((partition_rows_perm v ctx)).map h).sum_eq

/-- A list scatter leaves rows it never writes at the base value. -/
theorem scatter_of_not_mem (outs : List (ℕ × (ℕ → ℕ → CValue))) :
    ∀ (base : ℕ → ℕ → ℕ → CValue) (r : ℕ), r ∉ outs.map Prod.fst →
      ∀ c p, scatter base outs r c p = base r c p := by
  induction outs with
  | nil => intro base r _ c p; rfl
  | cons a tl ih =>
      intro base r h c p
      simp only [List.map_cons, List.mem_cons] at h
      push_neg at h
      rw [scatter, ih _ r h.2]
      simp [h.1]

/-- A list scatter with duplicate-free target rows writes each listed row
its own partition output. -/
theorem scatter_of_mem (outs : List (ℕ × (ℕ → ℕ → CValue))) :
    ∀ (base : ℕ → ℕ → ℕ → CValue) (r : ℕ) (f : ℕ → ℕ → CValue),
      (outs.map Prod.fst).Nodup → (r, f) ∈ outs →
      ∀ c p, scatter base outs r c p = f c p := by
  induction outs with
  | nil => intro base r f _ hmem; exact absurd hmem (List.not_mem_nil _)
  | cons a tl ih =>
      intro base r f hnd hmem c p
      simp only [List.map_cons, List.nodup_cons] at hnd
      rcases List.mem_cons.mp hmem with heq | htl
      · have hr1 : a.1 = r := by rw [← heq]
        have hr2 : a.2 = f := by rw [← heq]
        have hrn : r ∉ tl.map Prod.fst := hr1 ▸ hnd.1
        rw [scatter, scatter_of_not_mem tl _ r hrn]
        simp [hr1, hr2]
      · exact ih _ r f hnd.2 htl c p

/-! ## Helper lemmas on the phase, the dirty image and the sum of weights -/

/-- The discretized cosine at phase zero. -/
theorem qcos_zero : qcos 0 = 1 := rfl

/-- The discretized sine at phase zero. -/
theorem qsin_zero : qsin 0 = 0 := rfl

/-- The pixel offset vanishes at the phase centre. -/
theorem dxOf_centre (nx : ℕ) : dxOf nx (nx / 2) = 0 := by
  simp [dxOf]

/-- Every term of the fringe phase vanishes at the phase centre pixel. -/
theorem sample_phase_centre (pars : ImagingParams) (ctx : Context) (k : ℤ)
    (kern : Kernel) (uvw : ℚ × ℚ × ℚ) (ny nx : ℕ) :
    sample_phase pars ctx k kern uvw ny nx (ny / 2) (nx / 2) = 0 := by
  simp [sample_phase, dxOf_centre]

/-- At the phase centre pixel an unflagged sample contributes its weight
times the real part of its value, whatever the partition key and kernel. -/
theorem sample_dirty_contrib_centre (vv : Visibility) (pars : ImagingParams)
    (ctx : Context) (k : ℤ) (r c p : ℕ) (ny nx : ℕ) :
    sample_dirty_contrib vv pars ctx k ny nx r c p (ny / 2) (nx / 2) =
      if vv.flag r c p then 0 else vv.weight r c p * (vv.vis r c p).1 := by
  unfold sample_dirty_contrib
  rw [sample_phase_centre]
  split
  · rfl
  · simp [qcos_zero, qsin_zero]

/-- The assembled sum of weights equals the direct sum over all rows. -/
theorem assembled_sumwt_eq (vv : Visibility) (ctx : Context) (c p : ℕ) :
    assembled_sumwt vv ctx c p =
      ((List.range vv.nrows).map
        (fun r => if vv.flag r c p then 0 else vv.weight r c p)).sum := by
  unfold assembled_sumwt partial_sumwt
  exact sum_over_partitions vv ctx _ _ (fun k r _ => rfl)

/-- The raw dirty image at the phase centre pixel, for every context,
equals the sum over all rows of weight times real part of value for the
unflagged rows; the facet placement maps the centre pixel to itself. -/
theorem raw_dirty_centre (vv : Visibility) (pars : ImagingParams)
    (ctx : Context) (model : Image) (c p : ℕ) :
    raw_dirty vv pars ctx model c p (model.ny / 2) (model.nx / 2) =
      ((List.range vv.nrows).map
        (fun r => if vv.flag r c p then 0
          else vv.weight r c p * (vv.vis r c p).1)).sum := by
  have hass : ∀ ny nx, assembled_dirty vv pars ctx ny nx c p (ny / 2) (nx / 2) =
      ((List.range vv.nrows).map
        (fun r => if vv.flag r c p then 0
          else vv.weight r c p * (vv.vis r c p).1)).sum := by
    intro ny nx
    unfold assembled_dirty partial_dirty
    exact sum_over_partitions vv ctx _ _
      (fun k r _ => sample_dirty_contrib_centre vv pars ctx k r c p ny nx)
  cases ctx with
  | facets n =>
      show assembled_dirty vv pars (Context.facets n) model.ny model.nx c p
        ((model.ny / 2 / (model.ny / n)) * (model.ny / n) +
          (model.ny / 2) % (model.ny / n))
        ((model.nx / 2 / (model.nx / n)) * (model.nx / n) +
          (model.nx / 2) % (model.nx / n)) = _
      rw [Nat.mul_comm, Nat.div_add_mod, Nat.mul_comm, Nat.div_add_mod]
      exact hass model.ny model.nx
  | c2d => exact hass model.ny model.nx
  | timeslice ts => exact hass model.ny model.nx
  | wstack ws => exact hass model.ny model.nx

/-- Amplitude replacement preserves the shape, metadata, weights and flags
of the visibility and sets every complex value to unit amplitude. -/
theorem unit_amplitude_fields (v : Visibility) :
    (unit_amplitude v).nrows = v.nrows ∧
    (∀ r c p, (unit_amplitude v).vis r c p = (1, 0) ∧
      (unit_amplitude v).weight r c p = v.weight r c p ∧
      (unit_amplitude v).flag r c p = v.flag r c p) :=
  ⟨rfl, fun _ _ _ => ⟨rfl, rfl, rfl⟩⟩

/-- Positivity of the assembled sum of weights for a slice with nonnegative
weights and at least one unflagged strictly positive weight. -/
theorem assembled_sumwt_pos (vv : Visibility) (ctx : Context) (c p : ℕ)
    (hnn : ∀ r, r < vv.nrows → 0 ≤ vv.weight r c p)
    (hex : ∃ r, r < vv.nrows ∧ vv.flag r c p = false ∧ 0 < vv.weight r c p) :
    0 < assembled_sumwt vv ctx c p := by
  rw [assembled_sumwt_eq]
  obtain ⟨r0, hr0, hf, hw⟩ := hex
  have hmem : (if vv.flag r0 c p then (0 : ℚ) else vv.weight r0 c p) ∈
      (List.range vv.nrows).map
        (fun r => if vv.flag r c p then 0 else vv.weight r c p) :=
    List.mem_map_of_mem _ (List.mem_range.mpr hr0)
  have hterm : (if vv.flag r0 c p then (0 : ℚ) else vv.weight r0 c p) =
      vv.weight r0 c p := by rw [hf]; rfl
  have hle := List.single_le_sum (l := (List.range vv.nrows).map
      (fun r => if vv.flag r c p then 0 else vv.weight r c p))
    (by
      intro y hy
      obtain ⟨r, hr, hry⟩ := List.mem_map.mp hy
      rw [← hry]
      by_cases hfr : vv.flag r c p
      · simp [hfr]
      · simp only [hfr, if_false]
        exact hnn r (List.mem_range.mp hr)) _ hmem
  rw [hterm] at hle
  exact lt_of_lt_of_le hw hle

/-- The assembled sum of weights of a slice with no unflagged nonzero
weight is zero. -/
theorem assembled_sumwt_zero (vv : Visibility) (ctx : Context) (c p : ℕ)
    (hz : ∀ r, r < vv.nrows → vv.flag r c p = true ∨ vv.weight r c p = 0) :
    assembled_sumwt vv ctx c p = 0 := by
  rw [assembled_sumwt_eq]
  apply List.sum_eq_zero
  intro y hy
  obtain ⟨r, hr, hry⟩ := List.mem_map.mp hy
  rw [← hry]
  rcases hz r (List.mem_range.mp hr) with hh | hh
  · simp [hh]
  · simp [hh]

/-! ## Helper lemmas on rounding and the kernel cache -/

/-- Rounding half away from zero on a nonnegative argument. -/
theorem round_half_away_nonneg (q : ℚ) (hq : 0 ≤ q) :
    round_half_away q = ⌊q + 1/2⌋ := by
  unfold round_half_away
  rw [if_pos hq]

/-- Rounding half away from zero on a negative argument. -/
theorem round_half_away_negative (q : ℚ) (hq : q < 0) :
    round_half_away q = -⌊-q + 1/2⌋ := by
  unfold round_half_away
  rw [if_neg (not_le.mpr hq)]

/-- Rounding half away from zero reflects through zero. -/
theorem round_half_away_neg_eq (q : ℚ) (hq : q < 0) :
    round_half_away q = -(round_half_away (-q)) := by
  rw [round_half_away_negative q hq,
    round_half_away_nonneg (-q) (by linarith)]

/-- An integer distinct from another is at rational distance at least
one. -/
theorem one_le_abs_cast_sub (m n : ℤ) (h : m ≠ n) :
    (1 : ℚ) ≤ |(m : ℚ) - (n : ℚ)| := by
  have h1 : (1 : ℤ) ≤ |m - n| := Int.one_le_abs (sub_ne_zero.mpr h)
  calc (1 : ℚ) ≤ ((|m - n| : ℤ) : ℚ) := by exact_mod_cast h1
    _ = |(m : ℚ) - (n : ℚ)| := by rw [Int.cast_abs]; push_cast; ring_nf

/-- On a nonnegative argument, rounding half away from zero returns a
nearest integer, and the only other integer at equal distance (at a tie)
has strictly smaller magnitude. -/
theorem round_half_away_nearest_nonneg (q : ℚ) (hq : 0 ≤ q) (n : ℤ) :
    |q - (round_half_away q : ℚ)| ≤ |q - (n : ℚ)| ∧
      (|q - (n : ℚ)| = |q - (round_half_away q : ℚ)| →
        n = round_half_away q ∨ |n| < |round_half_away q|) := by
  rw [round_half_away_nonneg q hq]
  have h1 : ((⌊q + 1/2⌋ : ℤ) : ℚ) ≤ q + 1/2 := Int.floor_le _
  have h2 : q + 1/2 < ((⌊q + 1/2⌋ : ℤ) : ℚ) + 1 := Int.lt_floor_add_one _
  have habs : |q - ((⌊q + 1/2⌋ : ℤ) : ℚ)| ≤ 1/2 :=
    abs_le.mpr ⟨by linarith, by linarith⟩
  by_cases hn : n = ⌊q + 1/2⌋
  · subst hn
    exact ⟨le_refl _, fun _ => Or.inl rfl⟩
  · have hdist := one_le_abs_cast_sub ⌊q + 1/2⌋ n (fun hh => hn hh.symm)
    have htri : |((⌊q + 1/2⌋ : ℤ) : ℚ) - (n : ℚ)| ≤
        |q - ((⌊q + 1/2⌋ : ℤ) : ℚ)| + |q - (n : ℚ)| := by
      calc |((⌊q + 1/2⌋ : ℤ) : ℚ) - (n : ℚ)| =
          |(((⌊q + 1/2⌋ : ℤ) : ℚ) - q) + (q - (n : ℚ))| := by ring_nf
        _ ≤ |((⌊q + 1/2⌋ : ℤ) : ℚ) - q| + |q - (n : ℚ)| := abs_add _ _
        _ = |q - ((⌊q + 1/2⌋ : ℤ) : ℚ)| + |q - (n : ℚ)| := by
            rw [abs_sub_comm]
    constructor
    · linarith
    · intro heq
      have hhalf : |q - ((⌊q + 1/2⌋ : ℤ) : ℚ)| = 1/2 := by
        rw [heq] at htri
        linarith
      have hqm : q - ((⌊q + 1/2⌋ : ℤ) : ℚ) = -(1/2) := by
        rcases abs_cases (q - ((⌊q + 1/2⌋ : ℤ) : ℚ)) with ⟨ha, _⟩ | ⟨ha, _⟩
        · exfalso
          rw [hhalf] at ha
          linarith
        · rw [hhalf] at ha
          linarith
      have hqn : |q - (n : ℚ)| = 1/2 := by rw [heq, hhalf]
      rcases abs_cases (q - (n : ℚ)) with ⟨ha, _⟩ | ⟨ha, _⟩
      · have hn2 : (n : ℚ) = ((⌊q + 1/2⌋ : ℤ) : ℚ) - 1 := by
          rw [hqn] at ha
          linarith
        have hni : n = ⌊q + 1/2⌋ - 1 := by exact_mod_cast hn2
        have hm1 : 1 ≤ ⌊q + 1/2⌋ := by
          have hmq : (0 : ℚ) < ((⌊q + 1/2⌋ : ℤ) : ℚ) := by linarith
          have hmz : (0 : ℤ) < ⌊q + 1/2⌋ := by exact_mod_cast hmq
          omega
        right
        rw [hni, abs_of_nonneg (by omega : (0 : ℤ) ≤ ⌊q + 1/2⌋ - 1),
          abs_of_nonneg (by omega : (0 : ℤ) ≤ ⌊q + 1/2⌋)]
        omega
      · exfalso
        have : (n : ℚ) = ((⌊q + 1/2⌋ : ℤ) : ℚ) := by
          rw [hqn] at ha
          linarith
        exact hn (by exact_mod_cast this)

/-- Rounding half away from zero returns a nearest integer for every
argument, and at a tie the discarded neighbour has strictly smaller
magnitude. -/
theorem round_half_away_nearest (q : ℚ) (n : ℤ) :
    |q - (round_half_away q : ℚ)| ≤ |q - (n : ℚ)| ∧
      (|q - (n : ℚ)| = |q - (round_half_away q : ℚ)| →
        n = round_half_away q ∨ |n| < |round_half_away q|) := by
  rcases le_or_lt 0 q with hq | hq
  · exact round_half_away_nearest_nonneg q hq n
  · have key := round_half_away_nearest_nonneg (-q) (by linarith) (-n)
    rw [round_half_away_neg_eq q hq]
    have hc1 : |q - ((-(round_half_away (-q)) : ℤ) : ℚ)| =
        |(-q) - ((round_half_away (-q) : ℤ) : ℚ)| := by
      push_cast
      rw [show q - -((round_half_away (-q) : ℤ) : ℚ) =
        -(-q - ((round_half_away (-q) : ℤ) : ℚ)) by ring, abs_neg]
    have hc2 : |q - (n : ℚ)| = |(-q) - ((-n : ℤ) : ℚ)| := by
      push_cast
      rw [show q - (n : ℚ) = -(-q - -(n : ℚ)) by ring, abs_neg]
    constructor
    · rw [hc1, hc2]
      exact key.1
    · intro heq
      have heq2 : |(-q) - ((-n : ℤ) : ℚ)| =
          |(-q) - ((round_half_away (-q) : ℤ) : ℚ)| := by
        rw [← hc2, ← hc1]
        exact heq
      rcases key.2 heq2 with h | h
      · left
        omega
      · right
        rw [abs_neg] at h
        rw [abs_neg]
        exact h

/-- Lookup in an association list tabulating a function over keys. -/
theorem lookup_map_pair (f : ℤ → Kernel) :
    ∀ (l : List ℤ) (k : ℤ), k ∈ l →
      List.lookup k (l.map (fun a => (a, f a))) = some (f k) := by
  intro l
  induction l with
  | nil => intro k hk; exact absurd hk (List.not_mem_nil _)
  | cons a tl ih =>
      intro k hk
      by_cases hak : k = a
      · subst hak
        simp [List.lookup]
      · have htl : k ∈ tl := by
          rcases List.mem_cons.mp hk with hh | hh
          · exact absurd hh hak
          · exact hh
        simp only [List.map_cons, List.lookup]
        have hbeq : (k == a) = false := by simpa using hak
        rw [hbeq]
        exact ih k htl

/-- A cache lookup for a key the cache was built over returns the
deterministically built kernel of that key. -/
theorem kernel_of_cache (keys : List ℤ) (k : ℤ) (hk : k ∈ keys) :
    kernel_of (kernel_cache keys) k = buildKernel k := by
  unfold kernel_of kernel_cache
  rw [lookup_map_pair buildKernel keys.dedup k (List.mem_dedup.mpr hk)]
  rfl

/-- The kernel the engine uses for a sample row is the kernel built for
the w-plane index of that row. -/
theorem kernel_used_eq (v : Visibility) (pars : ImagingParams) (r : ℕ)
    (hr : r < v.nrows) :
    kernel_used v pars r =
      buildKernel (w_plane_index (v.uvw r).2.2 pars.wstep) := by
  unfold kernel_used vis_kernel_cache
  apply kernel_of_cache
  exact List.mem_map_of_mem _ (List.mem_range.mpr hr)

/-! ## Destructuring lemmas for the dispatcher -/

/-- A successful predict call passed validation and returned the input
record with only the value buffer replaced by the scattered assembly. -/
theorem predict_context_ok_elim (v : Visibility) (model : Image)
    (ctx : Context) (pars : ImagingParams) (out : Visibility)
    (hok : predict_context v model ctx pars = Except.ok out) :
    context_ok ctx model = true ∧
    out = { v with
      vis := scatter (fun _ _ _ => (0, 0)) (predict_outs v model ctx pars) } := by
  by_cases hco : context_ok ctx model = true
  · refine ⟨hco, ?_⟩
    unfold predict_context at hok
    rw [if_pos hco] at hok
    exact (Except.ok.inj hok).symm
  · unfold predict_context at hok
    rw [if_neg hco] at hok
    exact absurd hok (by simp)

/-- A successful invert call passed validation, and its image and
sum-of-weights array are the assembled ones. -/
theorem invert_context_ok_elim (v : Visibility) (model : Image)
    (dopsf norm : Bool) (ctx : Context) (pars : ImagingParams)
    (img : Image) (swt : ℕ → ℕ → ℚ)
    (hok : invert_context v model dopsf norm ctx pars =
      Except.ok (img, swt)) :
    context_ok ctx model = true ∧
    swt = assembled_sumwt (gridded_vis v dopsf) ctx ∧
    img.nchan = model.nchan ∧ img.npol = model.npol ∧
    img.ny = model.ny ∧ img.nx = model.nx ∧
    img.data = (if norm then
        normalize_image (raw_dirty (gridded_vis v dopsf) pars ctx model)
          (assembled_sumwt (gridded_vis v dopsf) ctx)
      else raw_dirty (gridded_vis v dopsf) pars ctx model) := by
  by_cases hco : context_ok ctx model = true
  · unfold invert_context at hok
    rw [if_pos hco] at hok
    have hpair := Except.ok.inj hok
    rw [Prod.mk.injEq] at hpair
    obtain ⟨h1, h2⟩ := hpair
    refine ⟨hco, h2.symm, ?_, ?_, ?_, ?_, ?_⟩ <;> (rw [← h1]; try rfl)
  · unfold invert_context at hok
    rw [if_neg hco] at hok
    exact absurd hok (by simp)

/-- Gridding with dopsf preserves shape, weights and flags. -/
theorem gridded_vis_fields (v : Visibility) (dopsf : Bool) :
    (gridded_vis v dopsf).nrows = v.nrows ∧
    (∀ r c p, (gridded_vis v dopsf).weight r c p = v.weight r c p ∧
      (gridded_vis v dopsf).flag r c p = v.flag r c p) := by
  cases dopsf with
  | false => exact ⟨rfl, fun _ _ _ => ⟨rfl, rfl⟩⟩
  | true => exact ⟨rfl, fun _ _ _ => ⟨rfl, rfl⟩⟩

/-! ## Counting helper for the baseline generator -/

/-- Sums over a list of successors. -/
theorem sum_map_add_one (g : ℕ → ℕ) :
    ∀ (l : List ℕ), (l.map (fun a => g a + 1)).sum = (l.map g).sum + l.length := by
  intro l
  induction l with
  | nil => rfl
  | cons a tl ih =>
      simp only [List.map_cons, List.sum_cons, List.length_cons, ih]
      omega

/-- Twice the triangular count laid out by the baseline generator. -/
theorem sum_range_sub_mul_two (n : ℕ) :
    (((List.range n).map (fun a => n - a)).sum) * 2 = n * (n + 1) := by
  induction n with
  | zero => rfl
  | succ n ih =>
      rw [List.range_succ, List.map_append, List.sum_append]
      have hcongr : (List.range n).map (fun a => n + 1 - a) =
          (List.range n).map (fun a => (n - a) + 1) :=
        List.map_congr_left (fun a ha => by
          have := List.mem_range.mp ha
          omega)
      simp only [List.map_cons, List.map_nil, List.sum_cons, List.sum_nil]
      rw [hcongr, sum_map_add_one, List.length_range]
      have hexp : ((List.range n).map (fun a => n - a)).sum + n +
          (n + 1 - n + 0) = ((List.range n).map (fun a => n - a)).sum +
            (n + 1) := by omega
      rw [hexp, Nat.add_mul, ih]
      ring

/-- A validated invert call returns exactly the assembled image and sum of
weights. -/
theorem invert_context_eq_ok (v : Visibility) (model : Image)
    (dopsf norm : Bool) (ctx : Context) (pars : ImagingParams)
    (hco : context_ok ctx model = true) :
    invert_context v model dopsf norm ctx pars =
      Except.ok (invert_image v model dopsf norm ctx pars,
        assembled_sumwt (gridded_vis v dopsf) ctx) := by
  unfold invert_context
  rw [if_pos hco]
  rfl

/-! ## Claim theorems -/

/-- C9: for every nonnegative nant, generate_baselines yields exactly the
pairs (ant1, ant2) with 0 <= ant1 <= ant2 < nant (so every auto-correlation
pair is included), in lexicographic order, and the number of pairs is
nant * (nant + 1) / 2. -/
theorem C9_generate_baselines_spec (nant : ℕ) :
    (∀ q : ℕ × ℕ, q ∈ generate_baselines nant ↔ q.1 ≤ q.2 ∧ q.2 < nant) ∧
    (generate_baselines nant).length = nant * (nant + 1) / 2 ∧
    (generate_baselines nant).Pairwise
      (fun q1 q2 => q1.1 < q2.1 ∨ (q1.1 = q2.1 ∧ q1.2 < q2.2)) := by
  refine ⟨?_, ?_, ?_⟩
  · intro q
    obtain ⟨a, b⟩ := q
    simp only [generate_baselines, List.mem_flatMap, List.mem_map,
      List.mem_range, List.mem_range'_1]
    constructor
    · rintro ⟨a1, ha1, b1, hb1, heq⟩
      injection heq with e1 e2
      subst e1
      subst e2
      exact ⟨hb1.1, by omega⟩
    · rintro ⟨h1, h2⟩
      exact ⟨a, by omega, b, ⟨h1, by omega⟩, rfl⟩
  · have hlen : (generate_baselines nant).length =
        ((List.range nant).map (fun a => nant - a)).sum := by
      unfold generate_baselines
      rw [List.length_flatMap]
      congr 1
      apply List.map_congr_left
      intro a _
      simp [List.length_range']
    have h2 := sum_range_sub_mul_two nant
    omega
  · have hjoin : generate_baselines nant =
        ((List.range nant).map (fun ant1 =>
          (List.range' ant1 (nant - ant1)).map
            (fun ant2 => (ant1, ant2)))).flatten := rfl
    rw [hjoin]
    apply List.pairwise_flatten.mpr
    constructor
    · intro l2 hl2
      obtain ⟨a, _, hl⟩ := List.mem_map.mp hl2
      rw [← hl]
      apply List.pairwise_map.mpr
      apply (List.pairwise_lt_range' ..).imp
      intro b1 b2 hlt
      exact Or.inr ⟨rfl, hlt⟩
    · apply List.pairwise_map.mpr
      apply (List.pairwise_lt_range nant).imp
      intro a1 a2 hlt x hx y hy
      obtain ⟨b1, _, hx1⟩ := List.mem_map.mp hx
      obtain ⟨b2, _, hy1⟩ := List.mem_map.mp hy
      rw [← hx1, ← hy1]
      exact Or.inl hlt

/-- C8: expand_polarizations always returns an array whose last dimension
is four; a two polarisation input is routed to output indices 0 and 3 with
indices 1 and 2 zero; a one polarisation input is duplicated to output
indices 0 and 3; and when the input already has four polarisations and the
effective dtype equals the input dtype the function returns the input
array itself (so in the Python source the caller and the result alias the
same mutable object). -/
theorem C8_expand_polarizations_spec (data : NDArr) (dtype : Option ℕ) :
    (expand_polarizations data dtype).npol = 4 ∧
    (data.npol = 2 → ∀ i j,
      (expand_polarizations data dtype).val i j 0 = data.val i j 0 ∧
      (expand_polarizations data dtype).val i j 3 = data.val i j 1 ∧
      (expand_polarizations data dtype).val i j 1 = 0 ∧
      (expand_polarizations data dtype).val i j 2 = 0) ∧
    (data.npol = 1 → ∀ i j,
      (expand_polarizations data dtype).val i j 0 = data.val i j 0 ∧
      (expand_polarizations data dtype).val i j 3 = data.val i j 0 ∧
      (expand_polarizations data dtype).val i j 1 = 0 ∧
      (expand_polarizations data dtype).val i j 2 = 0) ∧
    (data.npol = 4 → dtype.getD data.dtype = data.dtype →
      expand_polarizations data dtype = data) := by
  unfold expand_polarizations
  by_cases hc : data.npol = 4 ∧ dtype.getD data.dtype = data.dtype
  · obtain ⟨hc4, hcd⟩ := hc
    rw [if_pos ⟨hc4, hcd⟩]
    refine ⟨hc4, ?_, ?_, fun _ _ => rfl⟩
    · intro h2
      rw [h2] at hc4
      exact absurd hc4 (by decide)
    · intro h1
      rw [h1] at hc4
      exact absurd hc4 (by decide)
  · rw [if_neg hc]
    refine ⟨rfl, ?_, ?_, ?_⟩
    · intro h2 i j
      refine ⟨?_, ?_, ?_, ?_⟩ <;> simp [h2]
    · intro h1 i j
      refine ⟨?_, ?_, ?_, ?_⟩ <;> simp [h1]
    · intro h4 hd
      exact absurd ⟨h4, hd⟩ hc

/-- C8 witness: on a concrete two polarisation array the output has four
polarisations and routes input polarisation 1 to output index 3. -/
theorem C8_witness :
    (expand_polarizations dataW none).npol = 4 ∧
    (expand_polarizations dataW none).val 0 0 3 = dataW.val 0 0 1 := by
  have h := C8_expand_polarizations_spec dataW none
  exact ⟨h.1, ((h.2.1 rfl) 0 0).2.1⟩

/-- C10: on a visibility whose polarisation frame is not stokesI,
fit_visibility raises its assertion before any fitting and the input
component is unchanged; on a stokesI visibility it returns the same
component object, mutated in place with the fitted flux broadcast into
every flux entry and the fitted direction. -/
theorem C10_fit_visibility_spec (pt : String) (sc : SkyComponent)
    (res : FitResult) :
    (pt ≠ "stokesI" →
      fit_visibility pt sc res =
        (Except.error ("Currently restricted to stokesI"), sc)) ∧
    (pt = "stokesI" →
      ∃ sc2, fit_visibility pt sc res = (Except.ok sc2, sc2) ∧
        (∀ c p, sc2.flux c p = res.x0) ∧
        sc2.direction = (res.x1, res.x2)) := by
  constructor
  · intro hne
    unfold fit_visibility
    rw [if_neg hne]
  · intro heq
    refine ⟨{ flux := fun _ _ => res.x0, direction := (res.x1, res.x2) },
      ?_, fun _ _ => rfl, rfl⟩
    unfold fit_visibility
    rw [if_pos heq]

/-- C10 witness: the assertion path on a linear frame returns the error
with the component untouched, and the stokesI path returns the mutated
component. -/
theorem C10_witness :
    fit_visibility ("linear") scW resW =
      (Except.error ("Currently restricted to stokesI"), scW) ∧
    (∃ sc2, fit_visibility ("stokesI") scW resW = (Except.ok sc2, sc2) ∧
      (∀ c p, sc2.flux c p = resW.x0) ∧
      sc2.direction = (resW.x1, resW.x2)) :=
  ⟨(C10_fit_visibility_spec ("linear") scW resW).1 (by decide),
   (C10_fit_visibility_spec ("stokesI") scW resW).2 rfl⟩

/-- C1: for every input visibility, every supported context (2d, facets,
timeslice, wstack) and both kernel choices (with or without w-projection),
a successful predict_context returns a visibility with the same number of
samples whose metadata at index i (time, baseline, uvw, weights, flags,
channel and polarisation layout) equals the metadata of input sample i, and
whose value at index i is the partition output computed for input sample i;
element-wise subtraction of predicted from input visibilities is therefore
index-aligned. -/
theorem C1_predict_preserves_ordering (v : Visibility) (model : Image)
    (ctx : Context) (pars : ImagingParams) (out : Visibility)
    (hok : predict_context v model ctx pars = Except.ok out) :
    out.nrows = v.nrows ∧ out.nchan = v.nchan ∧ out.npol = v.npol ∧
    (∀ r, out.time r = v.time r ∧ out.baseline r = v.baseline r ∧
      out.uvw r = v.uvw r) ∧
    (∀ r c p, out.weight r c p = v.weight r c p ∧
      out.flag r c p = v.flag r c p) ∧
    (∀ r, r < v.nrows → ∀ c p, out.vis r c p =
      predict_value model pars ctx (row_bucket ctx v r)
        (kernel_used v pars r) (v.uvw r) c p) := by
  obtain ⟨hco, hout⟩ := predict_context_ok_elim v model ctx pars out hok
  subst hout
  refine ⟨rfl, rfl, rfl, fun r => ⟨rfl, rfl, rfl⟩,
    fun r c p => ⟨rfl, rfl⟩, ?_⟩
  intro r hr c p
  have hnd : ((predict_outs v model ctx pars).map Prod.fst).Nodup := by
    have hmap : (predict_outs v model ctx pars).map Prod.fst =
        (partition_keys v ctx).flatMap (fun k => partition_rows v ctx k) := by
      unfold predict_outs
      rw [List.map_flatMap]
      apply flatMap_congr_mem
      intro k _
      rw [List.map_map]
      exact List.map_id _
    rw [hmap]
    exact (partition_rows_perm v ctx).nodup_iff.mpr
      (List.nodup_range v.nrows)
  have hmem : (r, fun c2 p2 =>
      predict_value model pars ctx (row_bucket ctx v r)
        (kernel_used v pars r) (v.uvw r) c2 p2) ∈
      predict_outs v model ctx pars := by
    unfold predict_outs
    apply List.mem_flatMap.mpr
    exact ⟨row_bucket ctx v r, row_bucket_mem_keys v ctx r hr,
      List.mem_map.mpr ⟨r, mem_partition_rows_self v ctx r hr, rfl⟩⟩
  exact scatter_of_mem (predict_outs v model ctx pars) (fun _ _ _ => (0, 0))
    r _ hnd hmem c p

/-- C1 witness: a successful concrete predict_context call preserves row
count and per-index metadata. -/
theorem C1_witness :
    predOutW.nrows = vW.nrows ∧ predOutW.time 1 = vW.time 1 ∧
    predOutW.weight 1 0 0 = vW.weight 1 0 0 := by
  have h := C1_predict_preserves_ordering vW mW Context.c2d parsW predOutW
    (by rfl)
  exact ⟨h.1, (h.2.2.2.1 1).1, (h.2.2.2.2.1 1 0 0).1⟩

/-- C4: predict_context and invert_context do not mutate their inputs: in
the state-passing embedding the store of input objects after either call
equals the store before, every field of the input visibility (values,
weights, flags, uvw) and of the input model image included; the returned
objects are freshly constructed records. -/
theorem C4_inputs_not_mutated (st : EngineState) (ctx : Context)
    (pars : ImagingParams) (dopsf norm : Bool) :
    (predict_context_call st ctx pars).1 = st ∧
    (invert_context_call st dopsf norm ctx pars).1 = st ∧
    (predict_context_call st ctx pars).1.vis.vis = st.vis.vis ∧
    (predict_context_call st ctx pars).1.vis.weight = st.vis.weight ∧
    (predict_context_call st ctx pars).1.vis.flag = st.vis.flag ∧
    (predict_context_call st ctx pars).1.vis.uvw = st.vis.uvw ∧
    (invert_context_call st dopsf norm ctx pars).1.model.data =
      st.model.data :=
  ⟨rfl, rfl, rfl, rfl, rfl, rfl, rfl⟩

/-- Summing a constant over a range. -/
theorem sum_map_const_range (n m : ℕ) :
    ((List.range n).map (fun _ => m)).sum = n * m := by
  induction n with
  | zero => simp
  | succ k ih =>
      rw [List.range_succ, List.map_append, List.sum_append]
      simp only [List.map_cons, List.map_nil, List.sum_cons, List.sum_nil, ih]
      ring

/-- C6: with the facets context, predict_context and invert_context fail
with a ConfigurationError, surfaced to the caller, exactly when the facet
count does not evenly divide both spatial image dimensions; when it
divides, both calls succeed and the image decomposes into an n by n grid of
sub-images of shape (ny / n, nx / n), each viewing the parent pixels at its
facet offset, pairwise non-overlapping. -/
theorem C6_facets_divisibility (v : Visibility) (model : Image) (n : ℕ)
    (pars : ImagingParams) (dopsf norm : Bool) :
    (¬ (model.ny % n = 0 ∧ model.nx % n = 0) →
      predict_context v model (Context.facets n) pars =
        Except.error (ImagingError.configuration
          ("facets do not divide the image dimensions")) ∧
      invert_context v model dopsf norm (Context.facets n) pars =
        Except.error (ImagingError.configuration
          ("facets do not divide the image dimensions"))) ∧
    ((model.ny % n = 0 ∧ model.nx % n = 0) →
      (predict_context v model (Context.facets n) pars).isOk = true ∧
      (invert_context v model dopsf norm (Context.facets n) pars).isOk
        = true ∧
      (facet_indices n).length = n * n ∧
      (∀ i j, (facet_image model n i j).ny = model.ny / n ∧
        (facet_image model n i j).nx = model.nx / n ∧
        (∀ c p y x, (facet_image model n i j).data c p y x =
          model.data c p (i * (model.ny / n) + y)
            (j * (model.nx / n) + x))) ∧
      (∀ i j i2 j2 y x y2 x2, i < n → j < n → i2 < n → j2 < n →
        ¬ (i = i2 ∧ j = j2) →
        y < model.ny / n → x < model.nx / n →
        y2 < model.ny / n → x2 < model.nx / n →
        ¬ (i * (model.ny / n) + y = i2 * (model.ny / n) + y2 ∧
           j * (model.nx / n) + x = j2 * (model.nx / n) + x2))) := by
  constructor
  · intro hnd
    have hfd : context_ok (Context.facets n) model = false := by
      show facets_divide n model = false
      unfold facets_divide
      rcases not_and_or.mp hnd with hh | hh <;> simp [hh]
    constructor
    · unfold predict_context
      rw [hfd]
      rfl
    · unfold invert_context
      rw [hfd]
      rfl
  · intro hdiv
    have hfd : context_ok (Context.facets n) model = true := by
      show facets_divide n model = true
      unfold facets_divide
      simp [hdiv.1, hdiv.2]
    refine ⟨?_, ?_, ?_, fun i j => ⟨rfl, rfl, fun c p y x => rfl⟩, ?_⟩
    · unfold predict_context
      rw [hfd]
      rfl
    · unfold invert_context
      rw [hfd]
      rfl
    · unfold facet_indices
      rw [List.length_flatMap]
      have hm : (List.range n).map (List.length ∘ fun i =>
          (List.range n).map (fun j => (i, j))) =
          (List.range n).map (fun _ => n) := by
        apply List.map_congr_left
        intro a _
        simp
      rw [hm, sum_map_const_range]
    · intro i j i2 j2 y x y2 x2 hi hj hi2 hj2 hne hy hx hy2 hx2
      rintro ⟨hey, hex⟩
      rcases not_and_or.mp hne with hh | hh
      · have e1 : (i * (model.ny / n) + y) / (model.ny / n) = i :=
          Nat.div_eq_of_lt_le (Nat.le_add_right _ _)
            (by rw [Nat.succ_mul]; omega)
        have e2 : (i2 * (model.ny / n) + y2) / (model.ny / n) = i2 :=
          Nat.div_eq_of_lt_le (Nat.le_add_right _ _)
            (by rw [Nat.succ_mul]; omega)
        rw [hey, e2] at e1
        exact hh e1.symm
      · have e1 : (j * (model.nx / n) + x) / (model.nx / n) = j :=
          Nat.div_eq_of_lt_le (Nat.le_add_right _ _)
            (by rw [Nat.succ_mul]; omega)
        have e2 : (j2 * (model.nx / n) + x2) / (model.nx / n) = j2 :=
          Nat.div_eq_of_lt_le (Nat.le_add_right _ _)
            (by rw [Nat.succ_mul]; omega)
        rw [hex, e2] at e1
        exact hh e1.symm

/-- C6 witness: a facet count of three fails on a 2 by 2 image with the
configuration error, and a facet count of two succeeds. -/
theorem C6_witness :
    predict_context vW mW (Context.facets 3) parsW =
      Except.error (ImagingError.configuration
        ("facets do not divide the image dimensions")) ∧
    (invert_context vW mW true true (Context.facets 2) parsW).isOk
      = true := by
  constructor
  · exact ((C6_facets_divisibility vW mW 3 parsW true true).1 (by decide)).1
  · exact ((C6_facets_divisibility vW mW 2 parsW true true).2
      (by decide)).2.1

/-- C5: the w-plane bucket index equals round(w / wstep) with ties rounded
half away from zero: it is a nearest integer to w / wstep, at a tie the
discarded neighbour has strictly smaller magnitude, so exact half
quotients round away from zero (w / wstep = k + 1/2 gives k + 1 and its
negation gives -(k + 1)); and the kernel the engine uses for a sample is
the cache entry of its integer plane index, so two samples with equal
plane index receive the same kernel: lookups are keyed by the integer
index, never by the raw floating w. -/
theorem C5_w_plane_bucketing (w wstep : ℚ) (hws : 0 < wstep)
    (v : Visibility) (pars : ImagingParams) :
    (∀ n : ℤ, |w / wstep - (w_plane_index w wstep : ℚ)| ≤
        |w / wstep - (n : ℚ)| ∧
      (|w / wstep - (n : ℚ)| = |w / wstep - (w_plane_index w wstep : ℚ)| →
        n = w_plane_index w wstep ∨ |n| < |w_plane_index w wstep|)) ∧
    (∀ k : ℤ, 0 ≤ k →
      w_plane_index (((k : ℚ) + 1/2) * wstep) wstep = k + 1 ∧
      w_plane_index (-(((k : ℚ) + 1/2) * wstep)) wstep = -(k + 1)) ∧
    (∀ r, r < v.nrows → kernel_used v pars r =
      buildKernel (w_plane_index (v.uvw r).2.2 pars.wstep)) ∧
    (∀ r s, w_plane_index (v.uvw r).2.2 pars.wstep =
        w_plane_index (v.uvw s).2.2 pars.wstep →
      kernel_used v pars r = kernel_used v pars s) := by
  refine ⟨fun n => round_half_away_nearest (w / wstep) n, ?_,
    fun r hr => kernel_used_eq v pars r hr, ?_⟩
  · intro k hk
    have hne : wstep ≠ 0 := ne_of_gt hws
    have hdiv : ((k : ℚ) + 1/2) * wstep / wstep = (k : ℚ) + 1/2 :=
      mul_div_cancel_right₀ _ hne
    have hkq : (0 : ℚ) ≤ (k : ℚ) := by exact_mod_cast hk
    constructor
    · unfold w_plane_index
      rw [hdiv, round_half_away_nonneg _ (by linarith)]
      rw [show ((k : ℚ) + 1/2 + 1/2) = ((k + 1 : ℤ) : ℚ) by push_cast; ring]
      exact Int.floor_intCast _
    · unfold w_plane_index
      rw [neg_div, hdiv, round_half_away_negative _ (by linarith), neg_neg]
      rw [show ((k : ℚ) + 1/2 + 1/2) = ((k + 1 : ℤ) : ℚ) by push_cast; ring]
      rw [Int.floor_intCast]
  · intro r s h
    unfold kernel_used
    rw [h]

/-- C5 witness: the half quotient one half with unit wstep lands in plane
one, and a concrete sample receives the kernel built for its plane. -/
theorem C5_witness :
    w_plane_index ((((0 : ℤ) : ℚ) + 1/2) * 1) 1 = 0 + 1 ∧
    kernel_used vW parsWproj 0 =
      buildKernel (w_plane_index (vW.uvw 0).2.2 parsWproj.wstep) := by
  have h := C5_w_plane_bucketing (1/2) 1 (by norm_num) vW parsWproj
  exact ⟨(h.2.1 0 le_rfl).1, h.2.2.1 0 (by decide)⟩

/-- C2 counterexample: the claim as stated, demanding a unit phase centre
value in every slice of the PSF under only a global existence hypothesis,
is false: a visibility whose only positive weight sits in polarisation 0
yields a PSF whose polarisation 1 slice has phase centre value 0, not
within 1e-3 of one. -/
theorem C2_psf_counterexample :
    ¬ (∀ (v : Visibility) (model : Image) (ctx : Context)
        (pars : ImagingParams) (img : Image) (swt : ℕ → ℕ → ℚ),
        (∀ r c p, 0 ≤ v.weight r c p) →
        (∃ r c p, r < v.nrows ∧ c < v.nchan ∧ p < v.npol ∧
          v.flag r c p = false ∧ 0 < v.weight r c p) →
        invert_context v model true true ctx pars = Except.ok (img, swt) →
        ∀ c p, c < model.nchan → p < model.npol →
          |img.data c p (model.ny / 2) (model.nx / 2) - 1| < 1/1000) := by
  intro h
  have h2 := h vCE mCE Context.c2d parsW _ _
    (fun r c p => by by_cases hp : p = 0 <;> simp [vCE, hp])
    ⟨0, 0, 0, by decide, by decide, by decide, rfl, by norm_num [vCE]⟩
    rfl 0 1 (by decide) (by decide)
  have hz : assembled_sumwt (unit_amplitude vCE) Context.c2d 0 1 = 0 := by
    apply assembled_sumwt_zero
    intro r hr
    right
    simp [unit_amplitude, vCE]
  have h3 : |normalize_image
      (raw_dirty (unit_amplitude vCE) parsW Context.c2d mCE)
      (assembled_sumwt (unit_amplitude vCE) Context.c2d) 0 1
      (mCE.ny / 2) (mCE.nx / 2) - 1| < 1/1000 := h2
  unfold normalize_image at h3
  rw [hz, if_neg (lt_irrefl (0 : ℚ))] at h3
  rw [raw_dirty_centre (unit_amplitude vCE) parsW Context.c2d mCE 0 1] at h3
  norm_num [unit_amplitude, vCE] at h3

/-- C2 amended: a PSF invert (dopsf and normalize set) yields the exact
value one (hence a value within 1e-3 of one) at the phase centre pixel
(ny / 2, nx / 2) of every (channel, polarisation) slice with nonnegative
weights holding at least one unflagged strictly positive weight sample;
and with dopsf set the gridded visibility has every amplitude replaced by
unit amplitude with weights and flags preserved before gridding. -/
theorem C2_psf_peak_normalization (v : Visibility) (model : Image)
    (ctx : Context) (pars : ImagingParams) (img : Image)
    (swt : ℕ → ℕ → ℚ) (c p : ℕ)
    (hok : invert_context v model true true ctx pars = Except.ok (img, swt))
    (hnn : ∀ r, r < v.nrows → 0 ≤ v.weight r c p)
    (hex : ∃ r, r < v.nrows ∧ v.flag r c p = false ∧ 0 < v.weight r c p) :
    img.data c p (model.ny / 2) (model.nx / 2) = 1 ∧
    (∀ r c2 p2, (gridded_vis v true).vis r c2 p2 = (1, 0) ∧
      (gridded_vis v true).weight r c2 p2 = v.weight r c2 p2 ∧
      (gridded_vis v true).flag r c2 p2 = v.flag r c2 p2) := by
  obtain ⟨hco, hswt, hnchan, hnpol, hny, hnx, hdata⟩ :=
    invert_context_ok_elim v model true true ctx pars img swt hok
  have hpos : 0 < assembled_sumwt (gridded_vis v true) ctx c p := by
    apply assembled_sumwt_pos
    · intro r hr
      exact hnn r hr
    · obtain ⟨r, hr, hf, hw⟩ := hex
      exact ⟨r, hr, hf, hw⟩
  have hcentre : raw_dirty (gridded_vis v true) pars ctx model c p
      (model.ny / 2) (model.nx / 2) =
      assembled_sumwt (gridded_vis v true) ctx c p := by
    rw [raw_dirty_centre, assembled_sumwt_eq]
    apply congrArg List.sum
    apply List.map_congr_left
    intro r _
    by_cases hfr : (gridded_vis v true).flag r c p
    · simp [hfr]
    · rw [Bool.not_eq_true] at hfr
      simp [hfr, gridded_vis, unit_amplitude]
  constructor
  · rw [hdata]
    show normalize_image (raw_dirty (gridded_vis v true) pars ctx model)
      (assembled_sumwt (gridded_vis v true) ctx) c p
      (model.ny / 2) (model.nx / 2) = 1
    unfold normalize_image
    rw [if_pos hpos, hcentre]
    exact div_self (ne_of_gt hpos)
  · intro r c2 p2
    exact ⟨rfl, rfl, rfl⟩

/-- C2 witness: on a concrete uniform weight visibility the PSF phase
centre value of the populated slice is exactly one. -/
theorem C2_witness :
    invResW.1.data 0 0 (mW.ny / 2) (mW.nx / 2) = 1 := by
  have h := C2_psf_peak_normalization vW mW Context.c2d parsW
    invResW.1 invResW.2 0 0 (by rfl)
    (fun r hr => by norm_num [vW])
    ⟨0, by decide, rfl, by norm_num [vW]⟩
  exact h.1

/-- C3: for every invert call that passes validation, the run with
normalize set divides each (channel, polarisation) slice with strictly
positive sum of weights by that sum, leaves each slice with zero sum of
weights untouched (the zero entry of the returned sum-of-weights array
being its mark), raises no error for such slices, and the exact rational
arithmetic of the model performs no division at all on them, so no NaN or
Inf can arise. -/
theorem C3_normalization_guard (v : Visibility) (model : Image)
    (dopsf : Bool) (ctx : Context) (pars : ImagingParams)
    (hco : context_ok ctx model = true) :
    ∃ img swt raw,
      invert_context v model dopsf true ctx pars = Except.ok (img, swt) ∧
      invert_context v model dopsf false ctx pars = Except.ok (raw, swt) ∧
      ∀ c p y x,
        (0 < swt c p → img.data c p y x = raw.data c p y x / swt c p) ∧
        (swt c p = 0 → img.data c p y x = raw.data c p y x) := by
  refine ⟨invert_image v model dopsf true ctx pars,
    assembled_sumwt (gridded_vis v dopsf) ctx,
    invert_image v model dopsf false ctx pars,
    invert_context_eq_ok v model dopsf true ctx pars hco,
    invert_context_eq_ok v model dopsf false ctx pars hco, ?_⟩
  intro c p y x
  constructor
  · intro hpos
    show (if 0 < assembled_sumwt (gridded_vis v dopsf) ctx c p then
        raw_dirty (gridded_vis v dopsf) pars ctx model c p y x /
          assembled_sumwt (gridded_vis v dopsf) ctx c p
      else raw_dirty (gridded_vis v dopsf) pars ctx model c p y x) = _
    rw [if_pos hpos]
    rfl
  · intro hz
    show (if 0 < assembled_sumwt (gridded_vis v dopsf) ctx c p then
        raw_dirty (gridded_vis v dopsf) pars ctx model c p y x /
          assembled_sumwt (gridded_vis v dopsf) ctx c p
      else raw_dirty (gridded_vis v dopsf) pars ctx model c p y x) = _
    rw [hz, if_neg (lt_irrefl (0 : ℚ))]
    rfl

/-- C3 witness: a concrete normalized invert run next to its raw
companion. -/
theorem C3_witness :
    ∃ img swt raw,
      invert_context vW mW false true Context.c2d parsW =
        Except.ok (img, swt) ∧
      invert_context vW mW false false Context.c2d parsW =
        Except.ok (raw, swt) ∧
      ∀ c p y x,
        (0 < swt c p → img.data c p y x = raw.data c p y x / swt c p) ∧
        (swt c p = 0 → img.data c p y x = raw.data c p y x) :=
  C3_normalization_guard vW mW false Context.c2d parsW (by rfl)

/-- C7 counterexample: the claim as stated, demanding a strictly positive
sum of weights in every slice whenever one unflagged positive weight
sample exists anywhere, is false: a visibility with its only positive
weight in polarisation 0 returns a sum-of-weights entry 0 for
polarisation 1. -/
theorem C7_sumwt_counterexample :
    ¬ (∀ (v : Visibility) (model : Image) (dopsf norm : Bool)
        (ctx : Context) (pars : ImagingParams) (img : Image)
        (swt : ℕ → ℕ → ℚ),
        invert_context v model dopsf norm ctx pars = Except.ok (img, swt) →
        (∃ r c p, r < v.nrows ∧ c < v.nchan ∧ p < v.npol ∧
          v.flag r c p = false ∧ 0 < v.weight r c p) →
        ∀ c p, c < model.nchan → p < model.npol → 0 < swt c p) := by
  intro h
  have h2 := h vCE mCE false true Context.c2d parsW _ _ rfl
    ⟨0, 0, 0, by decide, by decide, by decide, rfl, by norm_num [vCE]⟩
    0 1 (by decide) (by decide)
  have h2b : 0 < assembled_sumwt vCE Context.c2d 0 1 := h2
  have hz : assembled_sumwt vCE Context.c2d 0 1 = 0 := by
    apply assembled_sumwt_zero
    intro r hr
    right
    simp [vCE]
  rw [hz] at h2b
  exact lt_irrefl 0 h2b

/-- C7 amended: for every successful invert call and every (channel,
polarisation) slice, the returned sum-of-weights entry is strictly
positive whenever the slice has nonnegative weights and holds at least one
unflagged strictly positive weight sample, and is zero whenever every
sample of the slice is flagged or has zero weight; no exception is raised
for zero slices (the call already returned successfully). -/
theorem C7_sumwt_positivity (v : Visibility) (model : Image)
    (dopsf norm : Bool) (ctx : Context) (pars : ImagingParams)
    (img : Image) (swt : ℕ → ℕ → ℚ)
    (hok : invert_context v model dopsf norm ctx pars =
      Except.ok (img, swt)) (c p : ℕ) :
    ((∀ r, r < v.nrows → 0 ≤ v.weight r c p) →
      (∃ r, r < v.nrows ∧ v.flag r c p = false ∧ 0 < v.weight r c p) →
      0 < swt c p) ∧
    ((∀ r, r < v.nrows → v.flag r c p = true ∨ v.weight r c p = 0) →
      swt c p = 0) := by
  obtain ⟨hco, hswt, _⟩ :=
    invert_context_ok_elim v model dopsf norm ctx pars img swt hok
  have hfields := gridded_vis_fields v dopsf
  constructor
  · intro hnn hex
    rw [hswt]
    apply assembled_sumwt_pos
    · intro r hr
      rw [(hfields.2 r c p).1]
      exact hnn r (by rw [hfields.1] at hr; exact hr)
    · obtain ⟨r, hr, hf, hw⟩ := hex
      refine ⟨r, ?_, ?_, ?_⟩
      · rw [hfields.1]
        exact hr
      · rw [(hfields.2 r c p).2]
        exact hf
      · rw [(hfields.2 r c p).1]
        exact hw
  · intro hz
    rw [hswt]
    apply assembled_sumwt_zero
    intro r hr
    rcases hz r (by rw [hfields.1] at hr; exact hr) with hh | hh
    · left
      rw [(hfields.2 r c p).2]
      exact hh
    · right
      rw [(hfields.2 r c p).1]
      exact hh

/-- C7 witness: on a concrete uniform weight visibility the populated
slice of the returned sum of weights is strictly positive. -/
theorem C7_witness : 0 < invResW2.2 0 0 := by
  have h := C7_sumwt_positivity vW mW false true Context.c2d parsW
    invResW2.1 invResW2.2 (by rfl) 0 0
  exact h.1 (fun r hr => by norm_num [vW]) ⟨0, by decide, rfl, by norm_num [vW]⟩

end SDP
